import Mathlib

/-!
Verification of the plane_sim repository's sphere-mesh generator and orbit
camera model (src/claude-globe-plane/main.cpp, with the same code duplicated
in src/claude-globe-plane/non-working-files/{sphere.h,camera.h}).

The C++ code works on `float`; the embedding works on `ℝ`, reading the
spec's "within floating tolerance" as exactness of the ideal real-valued
computation.  Loops that push onto `std::vector`s are embedded as folds that
append to lists; closed-form `flatMap` presentations of the same sequences
are proved equal to the folds and used to state the properties.
-/

/-! ## Definitions

### Index generation (`generateSphere`, index loop)

In the C++ index loop (main.cpp lines 206-226), `k1` starts at
`i*(sectorCount+1)` and `k2` at `k1+sectorCount+1`, and both are
incremented once per sector iteration, so at iteration `j` we have
`k1 = i*(sectorCount+1)+j` and `k2 = k1+sectorCount+1`.  Per cell the loop
pushes triangle `(k1, k2, k1+1)` unless `i == 0` and then
`(k1+1, k2, k2+1)` unless `i == stackCount-1`. -/

/-- The (zero, one or two) triangles the index loop of `generateSphere`
emits for stack cell `i`, sector cell `j`, in emission order. -/
def sphereQuadTris (sectorCount stackCount i j : ℕ) : List (ℕ × ℕ × ℕ) :=
  let k1 := i * (sectorCount + 1) + j
  let k2 := k1 + sectorCount + 1
  (if i ≠ 0 then [(k1, k2, k1 + 1)] else []) ++
    (if i ≠ stackCount - 1 then [(k1 + 1, k2, k2 + 1)] else [])

/-- All triangles emitted by the index loop of `generateSphere`, in
emission order. -/
def sphereTriangles (sectorCount stackCount : ℕ) : List (ℕ × ℕ × ℕ) :=
  (List.range stackCount).flatMap fun i =>
    (List.range sectorCount).flatMap fun j => sphereQuadTris sectorCount stackCount i j

/-- The flat index buffer produced by the index loop of `generateSphere`
(the triangles flattened in emission order). -/
def sphereIndexList (sectorCount stackCount : ℕ) : List ℕ :=
  (sphereTriangles sectorCount stackCount).flatMap fun t => [t.1, t.2.1, t.2.2]

/-! ### Three-component real vectors (`glm::vec3`) -/

/-- A 3-component vector, standing for `glm::vec3`. -/
abbrev V3 : Type := ℝ × ℝ × ℝ

noncomputable section

/-- `glm::dot`. -/
def dot3 (u v : V3) : ℝ := u.1 * v.1 + u.2.1 * v.2.1 + u.2.2 * v.2.2

/-- `glm::cross`. -/
def cross3 (u v : V3) : V3 :=
  (u.2.1 * v.2.2 - u.2.2 * v.2.1,
   u.2.2 * v.1 - u.1 * v.2.2,
   u.1 * v.2.1 - u.2.1 * v.1)

/-- Scalar multiple of a `vec3`. -/
def smul3 (c : ℝ) (v : V3) : V3 := (c * v.1, c * v.2.1, c * v.2.2)

/-- Difference of two `vec3`s. -/
def sub3 (u v : V3) : V3 := (u.1 - v.1, u.2.1 - v.2.1, u.2.2 - v.2.2)

/-- Sum of two `vec3`s. -/
def add3 (u v : V3) : V3 := (u.1 + v.1, u.2.1 + v.2.1, u.2.2 + v.2.2)

/-- `glm::length`: the Euclidean magnitude. -/
def norm3 (v : V3) : ℝ := Real.sqrt (dot3 v v)

/-- `glm::normalize`: the vector divided by its magnitude. -/
def normalize3 (v : V3) : V3 := smul3 (1 / norm3 v) v

/-! ### Vertex generation (`generateSphere`, vertex loop) -/

/-- One generated sphere vertex: a position and a normal (the six floats
pushed per inner iteration of the vertex loop, main.cpp lines 188-203). -/
structure SphereVertex where
  pos : V3
  normal : V3

/-- Dummy vertex used as the default for out-of-range list access. -/
def vdum : SphereVertex := ⟨(0, 0, 0), (0, 0, 0)⟩

/-- The vertex the vertex loop of `generateSphere` produces for stack index
`i` and sector index `j`: `stackAngle = π/2 - i*stackStep` with
`stackStep = π/stackCount`, `sectorAngle = j*sectorStep` with
`sectorStep = 2π/sectorCount`, `xy = radius*cos(stackAngle)`,
`z = radius*sin(stackAngle)`, `x = xy*cos(sectorAngle)`,
`y = xy*sin(sectorAngle)`, and normal `(x,y,z) * (1/radius)`
(`lengthInv = 1/radius`). -/
def mkVertex (radius : ℝ) (sectorCount stackCount i j : ℕ) : SphereVertex :=
  let stackAngle : ℝ := Real.pi / 2 - (i : ℝ) * (Real.pi / (stackCount : ℝ))
  let xy := radius * Real.cos stackAngle
  let z := radius * Real.sin stackAngle
  let sectorAngle : ℝ := (j : ℝ) * (2 * Real.pi / (sectorCount : ℝ))
  let x := xy * Real.cos sectorAngle
  let y := xy * Real.sin sectorAngle
  { pos := (x, y, z),
    normal := (x * (1 / radius), y * (1 / radius), z * (1 / radius)) }

/-- The six floats pushed for one vertex, in push order. -/
def vertexFloats (v : SphereVertex) : List ℝ :=
  [v.pos.1, v.pos.2.1, v.pos.2.2, v.normal.1, v.normal.2.1, v.normal.2.2]

/-- All vertices produced by the vertex loop of `generateSphere`, in
emission order (stack-major). -/
def sphereVertices (radius : ℝ) (sectorCount stackCount : ℕ) : List SphereVertex :=
  (List.range (stackCount + 1)).flatMap fun i =>
    (List.range (sectorCount + 1)).map fun j => mkVertex radius sectorCount stackCount i j

/-- `generateSphere` itself (main.cpp lines 172-226): given the initial
contents of the output vectors `vertices` and `indices`, run the two loops,
each `push_back` appending to the corresponding list, and return the final
contents. -/
def generateSphere (radius : ℝ) (sectorCount stackCount : ℕ)
    (vertices : List ℝ) (indices : List ℕ) : List ℝ × List ℕ :=
  let lengthInv := 1 / radius
  let sectorStep := 2 * Real.pi / (sectorCount : ℝ)
  let stackStep := Real.pi / (stackCount : ℝ)
  let vertices :=
    (List.range (stackCount + 1)).foldl (fun vs (i : ℕ) =>
      let stackAngle := Real.pi / 2 - (i : ℝ) * stackStep
      let xy := radius * Real.cos stackAngle
      let z := radius * Real.sin stackAngle
      (List.range (sectorCount + 1)).foldl (fun vs (j : ℕ) =>
        let sectorAngle := (j : ℝ) * sectorStep
        let x := xy * Real.cos sectorAngle
        let y := xy * Real.sin sectorAngle
        vs ++ [x, y, z, x * lengthInv, y * lengthInv, z * lengthInv]) vs) vertices
  let indices :=
    (List.range stackCount).foldl (fun ix i =>
      (List.range sectorCount).foldl (fun ix j =>
        let k1 := i * (sectorCount + 1) + j
        let k2 := k1 + sectorCount + 1
        let ix := if i ≠ 0 then ix ++ [k1, k2, k1 + 1] else ix
        if i ≠ stackCount - 1 then ix ++ [k1 + 1, k2, k2 + 1] else ix) ix) indices
  (vertices, indices)

/-- The ideal UV-sphere point of the spec: position
`(r·cosφ·cosθ, r·cosφ·sinθ, r·sinφ)`. -/
def sphPt (r φ θ : ℝ) : V3 :=
  (r * Real.cos φ * Real.cos θ, r * Real.cos φ * Real.sin θ, r * Real.sin φ)

/-! ### Orbit camera (automatic mode, main.cpp lines 481-514) -/

/-- The raw (un-renormalized) plane position for a given altitude and orbit
angle: horizontal circle of radius `planeAltitude` plus the latitude
oscillation `pathVariation = sin(planeAngle*2)*0.4` (main.cpp lines
486-494). -/
def pathRaw (planeAltitude planeAngle : ℝ) : V3 :=
  (planeAltitude * Real.cos planeAngle,
   Real.sin (planeAngle * 2) * 0.4,
   planeAltitude * Real.sin planeAngle)

/-- The plane position: the raw path vector normalized and rescaled to
length `planeAltitude` (main.cpp line 495). -/
def planePosition (planeAltitude planeAngle : ℝ) : V3 :=
  smul3 planeAltitude (normalize3 (pathRaw planeAltitude planeAngle))

/-- The forward direction: finite-difference tangent with angular step
`0.01`, normalized (main.cpp lines 498-506). -/
def forwardVec (planeAltitude planeAngle : ℝ) : V3 :=
  normalize3 (sub3 (planePosition planeAltitude (planeAngle + 0.01))
    (planePosition planeAltitude planeAngle))

/-- The initial up estimate: the current position normalized (main.cpp
line 507). -/
def upInitial (planeAltitude planeAngle : ℝ) : V3 :=
  normalize3 (planePosition planeAltitude planeAngle)

/-- `right = cross(forward, up)` (main.cpp line 508). -/
def rightVec (planeAltitude planeAngle : ℝ) : V3 :=
  cross3 (forwardVec planeAltitude planeAngle) (upInitial planeAltitude planeAngle)

/-- The recomputed up vector `up = cross(right, forward)` (main.cpp line
509). -/
def upVec (planeAltitude planeAngle : ℝ) : V3 :=
  cross3 (rightVec planeAltitude planeAngle) (forwardVec planeAltitude planeAngle)

/-! ### Program state and event handlers (main.cpp lines 14-32, 250-339,
456-573) -/

/-- The mutable globals of main.cpp that the input callbacks and the render
loop read and write. -/
structure SimState where
  planeAltitude : ℝ
  planeSpeed : ℝ
  planeAngle : ℝ
  planeTilt : ℝ
  manualControl : Bool
  cameraDistance : ℝ
  cameraAngleX : ℝ
  cameraAngleY : ℝ
  lastX : ℝ
  lastY : ℝ
  firstMouse : Bool
  mousePressed : Bool
  spacePressed : Bool
  globeRotationX : ℝ
  globeRotationY : ℝ

/-- The initial values of the globals (main.cpp lines 14-32; `lastX`,
`lastY` start at half the 800x600 window; `spacePressed` is the `static`
local of `processInput`, initially false). -/
def initialState : SimState where
  planeAltitude := 1.05
  planeSpeed := 0.3
  planeAngle := 0
  planeTilt := 0.15
  manualControl := false
  cameraDistance := 3
  cameraAngleX := 0
  cameraAngleY := 0
  lastX := 400
  lastY := 300
  firstMouse := true
  mousePressed := false
  spacePressed := false
  globeRotationX := 0
  globeRotationY := 0

/-- A state with every adjustable parameter at one of its bounds (used to
exercise the clamp pinning). -/
def allBoundsState : SimState :=
  { initialState with
    planeSpeed := 2
    planeAltitude := 2
    cameraAngleY := 1.5
    cameraDistance := 1.5 }

/-- One call of `processInput` (main.cpp lines 290-339) with the given
pressed keys: SPACE edge-toggles `manualControl`; in plane view the arrows
adjust speed (UP/DOWN, step 0.01) and altitude (RIGHT/LEFT, step 0.01),
then both are clamped (speed to [0,2], altitude to [1.05,2]); in manual
view the arrows rotate the globe by 0.02. -/
def processInputStep (s : SimState) (space up down left right : Bool) : SimState :=
  let s1 :=
    if space then
      if s.spacePressed then { s with spacePressed := true }
      else { s with manualControl := ¬s.manualControl, spacePressed := true }
    else { s with spacePressed := false }
  if s1.manualControl = false then
    let speed := s1.planeSpeed + (if up then 0.01 else 0)
    let speed := speed - (if down then 0.01 else 0)
    let alt := s1.planeAltitude - (if left then 0.01 else 0)
    let alt := alt + (if right then 0.01 else 0)
    let speed := if speed < 0 then 0 else speed
    let speed := if speed > 2 then 2 else speed
    let alt := if alt < 1.05 then 1.05 else alt
    let alt := if alt > 2 then 2 else alt
    { s1 with planeSpeed := speed, planeAltitude := alt }
  else
    let gy := s1.globeRotationY - (if left then 0.02 else 0)
    let gy := gy + (if right then 0.02 else 0)
    let gx := s1.globeRotationX - (if up then 0.02 else 0)
    let gx := gx + (if down then 0.02 else 0)
    { s1 with globeRotationX := gx, globeRotationY := gy }

/-- One call of `mouse_callback` (main.cpp lines 250-271) with the absolute
cursor position: ignored unless dragging in manual mode; on the first
sample only the reference point is (re)set; otherwise yaw/pitch accumulate
the offsets scaled by sensitivity 0.01 and the pitch is clamped to
[-1.5, 1.5]. -/
def mouseCallback (s : SimState) (xpos ypos : ℝ) : SimState :=
  if s.mousePressed = false ∨ s.manualControl = false then s
  else
    let s1 := if s.firstMouse then
        { s with lastX := xpos, lastY := ypos, firstMouse := false } else s
    let xoffset := xpos - s1.lastX
    let yoffset := s1.lastY - ypos
    let s2 := { s1 with lastX := xpos, lastY := ypos }
    let ax := s2.cameraAngleX + xoffset * 0.01
    let ay := s2.cameraAngleY + yoffset * 0.01
    let ay := if ay > 1.5 then 1.5 else ay
    let ay := if ay < -1.5 then -1.5 else ay
    { s2 with cameraAngleX := ax, cameraAngleY := ay }

/-- One call of `mouse_button_callback` (main.cpp lines 273-282): pressing
the left button starts a drag (and resets `firstMouse`); releasing it ends
the drag; other buttons are ignored. -/
def mouseButtonCallback (s : SimState) (leftButton press : Bool) : SimState :=
  if leftButton then
    if press then { s with mousePressed := true, firstMouse := true }
    else { s with mousePressed := false }
  else s

/-- One call of `scroll_callback` (main.cpp lines 284-288): the camera
distance decreases by `0.1 * yoffset` and is clamped to [1.5, 10]. -/
def scrollCallback (s : SimState) (yoffset : ℝ) : SimState :=
  let d := s.cameraDistance - yoffset * 0.1
  let d := if d < 1.5 then 1.5 else d
  let d := if d > 10 then 10 else d
  { s with cameraDistance := d }

/-- The per-frame view computation of the render loop (main.cpp lines
480-526): in plane view the orbit angle advances by `planeSpeed*deltaTime`
and the eye is the plane position at the advanced angle; in manual view no
state changes and the eye is the spherical-coordinate camera position.
Returns the new state and the eye position passed to `glm::lookAt`. -/
def renderFrame (s : SimState) (deltaTime : ℝ) : SimState × V3 :=
  if s.manualControl = false then
    let s' := { s with planeAngle := s.planeAngle + s.planeSpeed * deltaTime }
    (s', planePosition s'.planeAltitude s'.planeAngle)
  else
    (s, (Real.sin s.cameraAngleX * Real.cos s.cameraAngleY * s.cameraDistance,
         Real.sin s.cameraAngleY * s.cameraDistance,
         Real.cos s.cameraAngleX * Real.cos s.cameraAngleY * s.cameraDistance))

/-- The view position recomputed for the `viewPos` shading uniform later in
the same loop iteration (main.cpp lines 550-565), evaluated on the current
(already advanced) state. -/
def getViewPosition (s : SimState) : V3 :=
  if s.manualControl = false then
    planePosition s.planeAltitude s.planeAngle
  else
    (Real.sin s.cameraAngleX * Real.cos s.cameraAngleY * s.cameraDistance,
     Real.sin s.cameraAngleY * s.cameraDistance,
     Real.cos s.cameraAngleX * Real.cos s.cameraAngleY * s.cameraDistance)

/-- Iterated render frames (state part only): one `renderFrame` per elapsed
time in the list. -/
def framesRun (s : SimState) (dts : List ℝ) : SimState :=
  dts.foldl (fun s dt => (renderFrame s dt).1) s

/-- The configured ranges of the four user-adjustable parameters: speed in
[0,2], altitude in [1.05,2], pitch in [-1.5,1.5], distance in [1.5,10]. -/
def paramsInRange (s : SimState) : Prop :=
  0 ≤ s.planeSpeed ∧ s.planeSpeed ≤ 2 ∧
    1.05 ≤ s.planeAltitude ∧ s.planeAltitude ≤ 2 ∧
    -1.5 ≤ s.cameraAngleY ∧ s.cameraAngleY ≤ 1.5 ∧
    1.5 ≤ s.cameraDistance ∧ s.cameraDistance ≤ 10

end

/-! ## Generic list lemmas -/

/-- A fold that appends a chunk per element is the initial list followed by
the flattened chunks. -/
theorem foldl_append_eq {α β : Type} (g : α → List β) :
    ∀ (l : List α) (init : List β),
      l.foldl (fun acc x => acc ++ g x) init = init ++ l.flatMap g := by
  intro l
  induction l with
  | nil => intro init; simp
  | cons x xs ih =>
      intro init
      simp [List.flatMap_cons, ih, List.append_assoc]

/-- Length of a `flatMap` over `List.range` whose chunks all have the same
length. -/
theorem flatMap_range_length_const {α : Type} (g : ℕ → List α) (n : ℕ)
    (hg : ∀ k, (g k).length = n) :
    ∀ m : ℕ, ((List.range m).flatMap g).length = m * n := by
  intro m
  induction m with
  | zero => simp
  | succ m ih =>
      rw [List.range_succ]
      simp [ih, hg, Nat.succ_mul]

/-- Element `i*n + j` of a `flatMap` over `List.range` whose chunks all
have length `n` is element `j` of chunk `i`. -/
theorem flatMap_range_getD {α : Type} (n : ℕ) (d : α) :
    ∀ (m : ℕ) (g : ℕ → List α), (∀ k, (g k).length = n) →
      ∀ i j : ℕ, i < m → j < n →
        ((List.range m).flatMap g).getD (i * n + j) d = (g i).getD j d := by
  intro m
  induction m with
  | zero => intro g _ i j hi _; exact absurd hi (Nat.not_lt_zero i)
  | succ m ih =>
      intro g hg i j hi hj
      rw [List.range_succ_eq_map, List.flatMap_cons, List.flatMap_map]
      cases i with
      | zero =>
          simp only [Nat.zero_mul, Nat.zero_add]
          exact List.getD_append _ _ _ _ (by rw [hg 0]; exact hj)
      | succ i =>
          have hlen : n ≤ (i + 1) * n + j := by
            calc n ≤ (i + 1) * n := Nat.le_mul_of_pos_left n (Nat.succ_pos i)
            _ ≤ (i + 1) * n + j := Nat.le_add_right _ _
          rw [List.getD_append_right _ _ _ _ (by rw [hg 0]; exact hlen)]
          have harith : (i + 1) * n + j - (g 0).length = i * n + j := by
            rw [hg 0]; rw [Nat.succ_mul]; omega
          rw [harith]
          exact ih (fun k => g (Nat.succ k)) (fun k => hg _) i j
            (Nat.lt_of_succ_lt_succ hi) hj

/-! ## Index buffer: length and bounds -/

/-- Triangle count per cell: one at the pole rows, two elsewhere. -/
theorem sphereQuadTris_length (sc st i j : ℕ) :
    (sphereQuadTris sc st i j).length =
      (if i = 0 then 0 else 1) + (if i = st - 1 then 0 else 1) := by
  unfold sphereQuadTris
  split_ifs <;> simp_all

/-- Sums of pointwise sums of mapped lists split. -/
theorem sum_map_add {α : Type} (f g : α → ℕ) (l : List α) :
    (l.map fun a => f a + g a).sum = (l.map f).sum + (l.map g).sum := by
  induction l with
  | nil => simp
  | cons x xs ih => simp [ih]; omega

/-- Sum of a constant over `List.range`. -/
theorem sum_range_const (c : ℕ) : ∀ m : ℕ,
    ((List.range m).map fun _ => c).sum = m * c := by
  intro m
  induction m with
  | zero => simp
  | succ m ih => rw [List.range_succ]; simp [ih, Nat.succ_mul]

/-- Sum over `List.range m` of a constant vanishing only at `0`. -/
theorem sum_range_if_zero (c : ℕ) : ∀ m : ℕ,
    ((List.range m).map fun i => if i = 0 then 0 else c).sum = (m - 1) * c := by
  intro m
  induction m with
  | zero => simp
  | succ m ih =>
      rw [List.range_succ, List.map_append, List.sum_append, ih]
      cases m with
      | zero => simp
      | succ m => simp [Nat.succ_sub_one, Nat.succ_mul]

/-- Sum over `List.range m` of a constant vanishing only at the last
index. -/
theorem sum_range_if_last (c m K : ℕ) (h : K + 1 = m) :
    ((List.range m).map fun i => if i = K then 0 else c).sum = (m - 1) * c := by
  subst h
  rw [List.range_succ, List.map_append, List.sum_append]
  have h1 : ∀ i ∈ List.range K, (if i = K then 0 else c) = c := by
    intro i hi
    rw [List.mem_range] at hi
    simp [Nat.ne_of_lt hi]
  rw [List.map_congr_left h1, sum_range_const]
  simp

/-- The triangle list has `2·sectorCount·(stackCount−1)` entries. -/
theorem sphereTriangles_length (sc st : ℕ) (hst : 2 ≤ st) :
    (sphereTriangles sc st).length = 2 * sc * (st - 1) := by
  unfold sphereTriangles
  rw [List.length_flatMap]
  have h1 : ∀ i ∈ List.range st,
      (List.length ∘ fun i => (List.range sc).flatMap fun j => sphereQuadTris sc st i j) i
        = (if i = 0 then 0 else sc) + (if i = st - 1 then 0 else sc) := by
    intro i _
    simp only [Function.comp]
    rw [flatMap_range_length_const _ _ (fun j => sphereQuadTris_length sc st i j) sc]
    split_ifs <;> ring
  rw [List.map_congr_left h1, sum_map_add, sum_range_if_zero,
    sum_range_if_last sc st (st - 1) (by omega)]
  ring

/-- Flattening triples triples the length. -/
theorem length_flatMap_triple {α β : Type} (f g h : α → β) (l : List α) :
    (l.flatMap fun t => [f t, g t, h t]).length = 3 * l.length := by
  induction l with
  | nil => simp
  | cons x xs ih => simp [List.flatMap_cons, ih]; omega

/-- The flat index buffer has `2·sectorCount·(stackCount−1)·3` entries. -/
theorem sphereIndexList_length (sc st : ℕ) (hst : 2 ≤ st) :
    (sphereIndexList sc st).length = 2 * sc * (st - 1) * 3 := by
  unfold sphereIndexList
  rw [length_flatMap_triple, sphereTriangles_length sc st hst]
  ring

/-- Inversion of membership in the triangle list: each triangle comes from
a cell `(i, j)` and is one of the two cell triangles. -/
theorem mem_sphereTriangles {sc st : ℕ} {t : ℕ × ℕ × ℕ}
    (ht : t ∈ sphereTriangles sc st) :
    ∃ i j, i < st ∧ j < sc ∧
      ((i ≠ 0 ∧
          t = (i * (sc+1) + j, i * (sc+1) + j + sc + 1, i * (sc+1) + j + 1)) ∨
        (i ≠ st - 1 ∧
          t = (i * (sc+1) + j + 1, i * (sc+1) + j + sc + 1,
            i * (sc+1) + j + sc + 1 + 1))) := by
  simp only [sphereTriangles, List.mem_flatMap, List.mem_range] at ht
  obtain ⟨i, hi, j, hj, hmem⟩ := ht
  refine ⟨i, j, hi, hj, ?_⟩
  unfold sphereQuadTris at hmem
  simp only [List.mem_append, List.mem_ite_nil_right, List.mem_singleton] at hmem
  exact hmem

/-- Any index at most `(i+1)(sc+1)+j+1` for a valid cell is within the
vertex count. -/
theorem cellIndexBound (sc st i j x : ℕ) (hi : i < st) (hj : j < sc)
    (hx : x ≤ (i + 1) * (sc + 1) + j + 1) : x < (st + 1) * (sc + 1) := by
  have e1 : (i + 1) * (sc + 1) = i * (sc + 1) + (sc + 1) := by ring
  have e2 : (i + 2) * (sc + 1) = i * (sc + 1) + 2 * (sc + 1) := by ring
  have hm : (i + 2) * (sc + 1) ≤ (st + 1) * (sc + 1) :=
    Nat.mul_le_mul_right _ (by omega)
  omega

/-- Every emitted index is strictly below the vertex count. -/
theorem sphereIndexList_bound (sc st : ℕ) :
    ∀ x ∈ sphereIndexList sc st, x < (st + 1) * (sc + 1) := by
  intro x hx
  simp only [sphereIndexList, List.mem_flatMap] at hx
  obtain ⟨t, ht, hxt⟩ := hx
  obtain ⟨i, j, hi, hj, hcase⟩ := mem_sphereTriangles ht
  have e1 : (i + 1) * (sc + 1) = i * (sc + 1) + (sc + 1) := by ring
  rcases hcase with ⟨_, rfl⟩ | ⟨_, rfl⟩ <;>
    simp only [List.mem_cons, List.not_mem_nil, or_false] at hxt <;>
    rcases hxt with rfl | rfl | rfl <;>
    exact cellIndexBound sc st i j _ hi hj (by omega)

/-! ## `generateSphere` computes the closed forms

The two loops of `generateSphere` only ever append to the output vectors,
so the function appends the closed-form vertex and index sequences to
whatever the vectors already contain. -/

/-- The vertex loop of `generateSphere` appends the six floats of
`mkVertex i j` per iteration. -/
theorem generateSphere_vertices_eq (r : ℝ) (sc st : ℕ) (v0 : List ℝ)
    (i0 : List ℕ) :
    (generateSphere r sc st v0 i0).1 =
      v0 ++ (sphereVertices r sc st).flatMap vertexFloats := by
  unfold generateSphere
  dsimp only
  simp only [foldl_append_eq]
  refine congrArg (fun l => v0 ++ l) ?_
  unfold sphereVertices
  rw [List.flatMap_assoc]
  refine congrArg _ (funext fun i => ?_)
  rw [List.flatMap_map]
  refine congrArg _ (funext fun j => ?_)
  rfl

/-- A fold whose step appends a chunk (up to propositional equality) is
the initial list followed by the flattened chunks. -/
theorem foldl_append_of_eq {α β : Type} (f : List β → α → List β)
    (g : α → List β) (hf : ∀ acc x, f acc x = acc ++ g x) :
    ∀ (l : List α) (init : List β), l.foldl f init = init ++ l.flatMap g := by
  intro l
  induction l with
  | nil => intro init; simp
  | cons x xs ih =>
      intro init
      simp [List.flatMap_cons, hf, ih, List.append_assoc]

/-- The index loop of `generateSphere` appends the flattened cell
triangles per iteration. -/
theorem generateSphere_indices_eq (r : ℝ) (sc st : ℕ) (v0 : List ℝ)
    (i0 : List ℕ) :
    (generateSphere r sc st v0 i0).2 = i0 ++ sphereIndexList sc st := by
  unfold generateSphere
  dsimp only
  refine (foldl_append_of_eq _
      (fun i => (List.range sc).flatMap fun j =>
        (sphereQuadTris sc st i j).flatMap fun t => [t.1, t.2.1, t.2.2])
      (fun acc i => foldl_append_of_eq _
        (fun j => (sphereQuadTris sc st i j).flatMap fun t => [t.1, t.2.1, t.2.2])
        (fun acc2 j => by
          dsimp only
          unfold sphereQuadTris
          dsimp only
          split_ifs <;> simp [List.append_assoc])
        (List.range sc) acc)
      (List.range st) i0).trans ?_
  refine congrArg (fun l => i0 ++ l) ?_
  unfold sphereIndexList sphereTriangles
  rw [List.flatMap_assoc]
  refine congrArg _ (funext fun i => ?_)
  rw [List.flatMap_assoc]

/-! ## Vertex sequence: count, indexing, magnitudes -/

/-- `generateSphere` emits `(stackCount+1)·(sectorCount+1)` vertices. -/
theorem sphereVertices_length (r : ℝ) (sc st : ℕ) :
    (sphereVertices r sc st).length = (st + 1) * (sc + 1) := by
  unfold sphereVertices
  exact flatMap_range_length_const _ (sc + 1) (fun k => by simp) (st + 1)

/-- The vertex at buffer slot `i*(sectorCount+1)+j` is the one generated
for stack index `i` and sector index `j`. -/
theorem sphereVertices_getD (r : ℝ) (sc st i j : ℕ) (hi : i < st + 1)
    (hj : j < sc + 1) :
    (sphereVertices r sc st).getD (i * (sc + 1) + j) vdum
      = mkVertex r sc st i j := by
  unfold sphereVertices
  rw [flatMap_range_getD (sc + 1) vdum (st + 1) _ (fun k => by simp) i j hi hj]
  rw [List.getD_eq_getElem _ _ (by simpa using hj)]
  simp

/-- Inversion of membership in the vertex list. -/
theorem mem_sphereVertices {r : ℝ} {sc st : ℕ} {v : SphereVertex}
    (hv : v ∈ sphereVertices r sc st) :
    ∃ i j, i < st + 1 ∧ j < sc + 1 ∧ v = mkVertex r sc st i j := by
  simp only [sphereVertices, List.mem_flatMap, List.mem_map,
    List.mem_range] at hv
  obtain ⟨i, hi, j, hj, hv⟩ := hv
  exact ⟨i, j, hi, hj, hv.symm⟩

/-- The generated position is the spec's ideal UV-sphere point at
`φ = π/2 - i·(π/stackCount)`, `θ = j·(2π/sectorCount)`. -/
theorem mkVertex_pos (r : ℝ) (sc st i j : ℕ) :
    (mkVertex r sc st i j).pos
      = sphPt r (Real.pi / 2 - (i : ℝ) * (Real.pi / (st : ℝ)))
          ((j : ℝ) * (2 * Real.pi / (sc : ℝ))) := rfl

/-- The generated normal is the position scaled by `1/radius`. -/
theorem mkVertex_normal (r : ℝ) (sc st i j : ℕ) :
    (mkVertex r sc st i j).normal = smul3 (1 / r) (mkVertex r sc st i j).pos := by
  unfold mkVertex smul3
  dsimp only
  rw [Prod.mk.injEq, Prod.mk.injEq]
  exact ⟨by ring, by ring, by ring⟩

/-- Squared magnitude of an ideal UV-sphere point. -/
theorem dot3_sphPt (r φ θ : ℝ) : dot3 (sphPt r φ θ) (sphPt r φ θ) = r ^ 2 := by
  unfold dot3 sphPt
  dsimp only
  linear_combination (r ^ 2 * Real.cos φ ^ 2) * Real.sin_sq_add_cos_sq θ +
    r ^ 2 * Real.sin_sq_add_cos_sq φ

/-- Scaling commutes with the magnitude. -/
theorem norm3_smul3 (c : ℝ) (v : V3) : norm3 (smul3 c v) = |c| * norm3 v := by
  unfold norm3
  rw [show dot3 (smul3 c v) (smul3 c v) = c ^ 2 * dot3 v v by
    unfold dot3 smul3; dsimp only; ring]
  rw [Real.sqrt_mul (sq_nonneg c), Real.sqrt_sq_eq_abs]

/-- Magnitude of an ideal UV-sphere point of radius `r ≥ 0`. -/
theorem norm3_sphPt (r φ θ : ℝ) (hr : 0 ≤ r) : norm3 (sphPt r φ θ) = r := by
  unfold norm3
  rw [dot3_sphPt, Real.sqrt_sq hr]

/-- Every generated position has magnitude `radius` (for `radius > 0`). -/
theorem mkVertex_pos_norm (r : ℝ) (sc st i j : ℕ) (hr : 0 < r) :
    norm3 (mkVertex r sc st i j).pos = r := by
  rw [mkVertex_pos]
  exact norm3_sphPt _ _ _ hr.le

/-- Every generated normal has magnitude `1` (for `radius > 0`). -/
theorem mkVertex_normal_norm (r : ℝ) (sc st i j : ℕ) (hr : 0 < r) :
    norm3 (mkVertex r sc st i j).normal = 1 := by
  rw [mkVertex_normal, norm3_smul3, mkVertex_pos_norm r sc st i j hr,
    abs_of_pos (by positivity)]
  field_simp

/-- Length of a `flatMap` with constant chunk length. -/
theorem length_flatMap_const {α β : Type} (f : α → List β) (n : ℕ)
    (hf : ∀ a, (f a).length = n) :
    ∀ l : List α, (l.flatMap f).length = l.length * n := by
  intro l
  induction l with
  | nil => simp
  | cons x xs ih =>
      rw [List.flatMap_cons, List.length_append, ih, hf, List.length_cons]
      ring

/-- C1: for every radius `r > 0` and counts `≥ 3`, `generateSphere`
produces exactly `(stackCount+1)·(sectorCount+1)` vertices (each six
floats); the vertex at slot `i·(sectorCount+1)+j` has position
`(r·cosφ·cosθ, r·cosφ·sinθ, r·sinφ)` with `φ = π/2 − i·(π/stackCount)`
and `θ = j·(2π/sectorCount)` and normal `position/r`; every position has
magnitude `r` and every normal magnitude `1`. -/
theorem claim_C1 (r : ℝ) (sc st : ℕ) (hr : 0 < r) (hsc : 3 ≤ sc)
    (hst : 3 ≤ st) :
    (generateSphere r sc st [] []).1 = (sphereVertices r sc st).flatMap vertexFloats ∧
    (generateSphere r sc st [] []).1.length = ((st + 1) * (sc + 1)) * 6 ∧
    (sphereVertices r sc st).length = (st + 1) * (sc + 1) ∧
    (∀ i j : ℕ, i ≤ st → j ≤ sc →
      (sphereVertices r sc st).getD (i * (sc + 1) + j) vdum =
        { pos := sphPt r (Real.pi / 2 - (i : ℝ) * (Real.pi / (st : ℝ)))
            ((j : ℝ) * (2 * Real.pi / (sc : ℝ))),
          normal := smul3 (1 / r)
            (sphPt r (Real.pi / 2 - (i : ℝ) * (Real.pi / (st : ℝ)))
              ((j : ℝ) * (2 * Real.pi / (sc : ℝ)))) }) ∧
    (∀ v ∈ sphereVertices r sc st,
      norm3 v.pos = r ∧ norm3 v.normal = 1 ∧ v.normal = smul3 (1 / r) v.pos) := by
  have he : (generateSphere r sc st [] []).1
      = (sphereVertices r sc st).flatMap vertexFloats := by
    rw [generateSphere_vertices_eq]; simp
  refine ⟨he, ?_, sphereVertices_length r sc st, ?_, ?_⟩
  · rw [he, length_flatMap_const vertexFloats 6 (fun v => by simp [vertexFloats]),
      sphereVertices_length]
  · intro i j hi hj
    rw [sphereVertices_getD r sc st i j (by omega) (by omega)]
    conv_lhs => rw [show mkVertex r sc st i j
        = { pos := (mkVertex r sc st i j).pos,
            normal := (mkVertex r sc st i j).normal } from rfl]
    rw [mkVertex_normal, mkVertex_pos]
  · intro v hv
    obtain ⟨i, j, hi, hj, rfl⟩ := mem_sphereVertices hv
    exact ⟨mkVertex_pos_norm r sc st i j hr, mkVertex_normal_norm r sc st i j hr,
      mkVertex_normal r sc st i j⟩

/-- Witness for C1 at `r = 1`, `sectorCount = stackCount = 3`. -/
theorem claim_C1_witness :
    (0 : ℝ) < 1 ∧ (3 : ℕ) ≤ 3 ∧
      (sphereVertices (1 : ℝ) 3 3).length = (3 + 1) * (3 + 1) :=
  ⟨by norm_num, le_refl 3,
    (claim_C1 1 3 3 (by norm_num) (le_refl 3) (le_refl 3)).2.2.1⟩

/-- C2: for every radius `r > 0` and counts `≥ 3`, the index buffer
produced by `generateSphere` has length exactly
`2·sectorCount·(stackCount−1)·3` and every emitted index is strictly less
than the vertex count `(stackCount+1)·(sectorCount+1)`. -/
theorem claim_C2 (r : ℝ) (sc st : ℕ) (hr : 0 < r) (hsc : 3 ≤ sc)
    (hst : 3 ≤ st) :
    (generateSphere r sc st [] []).2 = sphereIndexList sc st ∧
    (generateSphere r sc st [] []).2.length = 2 * sc * (st - 1) * 3 ∧
    ∀ x ∈ (generateSphere r sc st [] []).2, x < (st + 1) * (sc + 1) := by
  have he : (generateSphere r sc st [] []).2 = sphereIndexList sc st := by
    rw [generateSphere_indices_eq]; simp
  refine ⟨he, ?_, ?_⟩
  · rw [he, sphereIndexList_length sc st (by omega)]
  · rw [he]; exact sphereIndexList_bound sc st

/-- Witness for C2 at `r = 1`, `sectorCount = stackCount = 3`. -/
theorem claim_C2_witness :
    (0 : ℝ) < 1 ∧ (3 : ℕ) ≤ 3 ∧
      (generateSphere (1 : ℝ) 3 3 [] []).2.length = 2 * 3 * (3 - 1) * 3 :=
  ⟨by norm_num, le_refl 3,
    (claim_C2 1 3 3 (by norm_num) (le_refl 3) (le_refl 3)).2.1⟩

/-- C8: `generateSphere` is total and purely functional: its entire effect
is to append the vertex and index sequences — fully determined by
`(radius, sectorCount, stackCount)` — to the given initial contents of the
output vectors. -/
theorem claim_C8 (r : ℝ) (sc st : ℕ) (v0 : List ℝ) (i0 : List ℕ)
    (hr : 0 < r) (hsc : 0 < sc) (hst : 0 < st) :
    generateSphere r sc st v0 i0 =
      (v0 ++ (sphereVertices r sc st).flatMap vertexFloats,
        i0 ++ sphereIndexList sc st) :=
  Prod.ext (generateSphere_vertices_eq r sc st v0 i0)
    (generateSphere_indices_eq r sc st v0 i0)

/-- Witness for C8 at `r = 1`, counts `1`, nonempty initial buffers. -/
theorem claim_C8_witness :
    (0 : ℝ) < 1 ∧ (0 : ℕ) < 1 ∧
      generateSphere (1 : ℝ) 1 1 [5] [7] =
        ([5] ++ (sphereVertices (1 : ℝ) 1 1).flatMap vertexFloats,
          [7] ++ sphereIndexList 1 1) :=
  ⟨by norm_num, Nat.one_pos,
    claim_C8 1 1 1 [5] [7] (by norm_num) Nat.one_pos Nat.one_pos⟩

/-! ## Triangle winding (C5)

For both triangle shapes, the dot product of the edge-cross-product normal
with each corner position factors as
`r³ · cos(stack angle of the shared row) · sin(θ'-θ) · sin(φ-φ')`,
a pure polynomial identity after expanding the subtraction formulas. -/

/-- Pulling a scalar out of the second argument of the dot product. -/
theorem dot3_smul3_right (c : ℝ) (u v : V3) :
    dot3 u (smul3 c v) = c * dot3 u v := by
  unfold dot3 smul3
  dsimp only
  ring

/-- First corner of the upper-cell triangle `(k1, k2, k1+1)`. -/
theorem triA_dot_fst (r φ φ' θ θ' : ℝ) :
    dot3 (cross3 (sub3 (sphPt r φ' θ) (sphPt r φ θ))
        (sub3 (sphPt r φ θ') (sphPt r φ θ))) (sphPt r φ θ)
      = r ^ 3 * (Real.cos φ * (Real.sin (θ' - θ) * Real.sin (φ - φ'))) := by
  unfold dot3 cross3 sub3 sphPt
  dsimp only
  rw [Real.sin_sub θ' θ, Real.sin_sub φ φ']
  ring

/-- Second corner of the upper-cell triangle `(k1, k2, k1+1)`. -/
theorem triA_dot_snd (r φ φ' θ θ' : ℝ) :
    dot3 (cross3 (sub3 (sphPt r φ' θ) (sphPt r φ θ))
        (sub3 (sphPt r φ θ') (sphPt r φ θ))) (sphPt r φ' θ)
      = r ^ 3 * (Real.cos φ * (Real.sin (θ' - θ) * Real.sin (φ - φ'))) := by
  unfold dot3 cross3 sub3 sphPt
  dsimp only
  rw [Real.sin_sub θ' θ, Real.sin_sub φ φ']
  ring

/-- Third corner of the upper-cell triangle `(k1, k2, k1+1)`. -/
theorem triA_dot_thd (r φ φ' θ θ' : ℝ) :
    dot3 (cross3 (sub3 (sphPt r φ' θ) (sphPt r φ θ))
        (sub3 (sphPt r φ θ') (sphPt r φ θ))) (sphPt r φ θ')
      = r ^ 3 * (Real.cos φ * (Real.sin (θ' - θ) * Real.sin (φ - φ'))) := by
  unfold dot3 cross3 sub3 sphPt
  dsimp only
  rw [Real.sin_sub θ' θ, Real.sin_sub φ φ']
  ring

/-- First corner of the lower-cell triangle `(k1+1, k2, k2+1)`. -/
theorem triB_dot_fst (r φ φ' θ θ' : ℝ) :
    dot3 (cross3 (sub3 (sphPt r φ' θ) (sphPt r φ θ'))
        (sub3 (sphPt r φ' θ') (sphPt r φ θ'))) (sphPt r φ θ')
      = r ^ 3 * (Real.cos φ' * (Real.sin (θ' - θ) * Real.sin (φ - φ'))) := by
  unfold dot3 cross3 sub3 sphPt
  dsimp only
  rw [Real.sin_sub θ' θ, Real.sin_sub φ φ']
  ring

/-- Second corner of the lower-cell triangle `(k1+1, k2, k2+1)`. -/
theorem triB_dot_snd (r φ φ' θ θ' : ℝ) :
    dot3 (cross3 (sub3 (sphPt r φ' θ) (sphPt r φ θ'))
        (sub3 (sphPt r φ' θ') (sphPt r φ θ'))) (sphPt r φ' θ)
      = r ^ 3 * (Real.cos φ' * (Real.sin (θ' - θ) * Real.sin (φ - φ'))) := by
  unfold dot3 cross3 sub3 sphPt
  dsimp only
  rw [Real.sin_sub θ' θ, Real.sin_sub φ φ']
  ring

/-- Third corner of the lower-cell triangle `(k1+1, k2, k2+1)`. -/
theorem triB_dot_thd (r φ φ' θ θ' : ℝ) :
    dot3 (cross3 (sub3 (sphPt r φ' θ) (sphPt r φ θ'))
        (sub3 (sphPt r φ' θ') (sphPt r φ θ'))) (sphPt r φ' θ')
      = r ^ 3 * (Real.cos φ' * (Real.sin (θ' - θ) * Real.sin (φ - φ'))) := by
  unfold dot3 cross3 sub3 sphPt
  dsimp only
  rw [Real.sin_sub θ' θ, Real.sin_sub φ φ']
  ring

/-- The stack angle of a non-pole row has positive cosine. -/
theorem cos_stack_pos (st k : ℕ) (hk0 : k ≠ 0) (hkst : k < st) :
    0 < Real.cos (Real.pi / 2 - (k : ℝ) * (Real.pi / (st : ℝ))) := by
  have hπ := Real.pi_pos
  have hstR : (0 : ℝ) < st := by
    have h := lt_of_le_of_lt (Nat.zero_le k) hkst
    exact_mod_cast h
  have hk1 : (1 : ℝ) ≤ k := by exact_mod_cast Nat.one_le_iff_ne_zero.mpr hk0
  have hkR : (k : ℝ) < st := by exact_mod_cast hkst
  apply Real.cos_pos_of_mem_Ioo
  refine Set.mem_Ioo.mpr ⟨?_, ?_⟩
  · have h2 : (k : ℝ) * (Real.pi / st) < st * (Real.pi / st) :=
      mul_lt_mul_of_pos_right hkR (div_pos hπ hstR)
    have h3 : (st : ℝ) * (Real.pi / st) = Real.pi := by field_simp
    linarith
  · have h2 : 0 < (k : ℝ) * (Real.pi / st) :=
      mul_pos (by linarith) (div_pos hπ hstR)
    linarith

/-- C5: every triangle emitted by `generateSphere` winds so that the
cross product of its edges points outward: it has positive dot product
with the vertex normal at each of its three corners. -/
theorem claim_C5 (r : ℝ) (sc st : ℕ) (hr : 0 < r) (hsc : 3 ≤ sc)
    (hst : 3 ≤ st) :
    ∀ t ∈ sphereTriangles sc st, ∀ va vb vc : SphereVertex,
      va = (sphereVertices r sc st).getD t.1 vdum →
      vb = (sphereVertices r sc st).getD t.2.1 vdum →
      vc = (sphereVertices r sc st).getD t.2.2 vdum →
      0 < dot3 (cross3 (sub3 vb.pos va.pos) (sub3 vc.pos va.pos)) va.normal ∧
      0 < dot3 (cross3 (sub3 vb.pos va.pos) (sub3 vc.pos va.pos)) vb.normal ∧
      0 < dot3 (cross3 (sub3 vb.pos va.pos) (sub3 vc.pos va.pos)) vc.normal := by
  intro t ht va vb vc hva hvb hvc
  have hπ := Real.pi_pos
  have hscR : (0 : ℝ) < sc := by
    have h : 0 < sc := by omega
    exact_mod_cast h
  have hstR : (0 : ℝ) < st := by
    have h : 0 < st := by omega
    exact_mod_cast h
  have hsθ : 0 < Real.sin (2 * Real.pi / sc) := by
    apply Real.sin_pos_of_pos_of_lt_pi (by positivity)
    rw [div_lt_iff hscR]
    have h3 : (3 : ℝ) ≤ sc := by exact_mod_cast hsc
    nlinarith
  have hsφ : 0 < Real.sin (Real.pi / st) := by
    apply Real.sin_pos_of_pos_of_lt_pi (by positivity)
    rw [div_lt_iff hstR]
    have h3 : (3 : ℝ) ≤ st := by exact_mod_cast hst
    nlinarith
  obtain ⟨i, j, hi, hj, hcase⟩ := mem_sphereTriangles ht
  rcases hcase with ⟨h0, rfl⟩ | ⟨hl, rfl⟩
  · -- upper-cell triangle (k1, k2, k1+1): corners (i,j), (i+1,j), (i,j+1)
    have hcA := cos_stack_pos st i h0 hi
    dsimp only at hva hvb hvc
    rw [sphereVertices_getD r sc st i j (by omega) (by omega)] at hva
    rw [show i * (sc + 1) + j + sc + 1 = (i + 1) * (sc + 1) + j by ring,
      sphereVertices_getD r sc st (i + 1) j (by omega) (by omega)] at hvb
    rw [show i * (sc + 1) + j + 1 = i * (sc + 1) + (j + 1) by ring,
      sphereVertices_getD r sc st i (j + 1) (by omega) (by omega)] at hvc
    subst hva hvb hvc
    rw [mkVertex_normal r sc st i j, mkVertex_normal r sc st (i + 1) j,
      mkVertex_normal r sc st i (j + 1), mkVertex_pos r sc st i j,
      mkVertex_pos r sc st (i + 1) j, mkVertex_pos r sc st i (j + 1)]
    have hΔθ : ((j : ℝ) + 1) * (2 * Real.pi / sc) - (j : ℝ) * (2 * Real.pi / sc)
        = 2 * Real.pi / sc := by ring
    have hΔθ2 : (((j + 1 : ℕ)) : ℝ) * (2 * Real.pi / sc)
        = ((j : ℝ) + 1) * (2 * Real.pi / sc) := by push_cast; ring
    have hΔφ : (Real.pi / 2 - (i : ℝ) * (Real.pi / st)) -
        (Real.pi / 2 - (((i + 1 : ℕ)) : ℝ) * (Real.pi / st)) = Real.pi / st := by
      push_cast; ring
    refine ⟨?_, ?_, ?_⟩
    · rw [dot3_smul3_right, triA_dot_fst, hΔφ, hΔθ2, hΔθ]
      exact mul_pos (by positivity)
        (mul_pos (pow_pos hr 3) (mul_pos hcA (mul_pos hsθ hsφ)))
    · rw [dot3_smul3_right, triA_dot_snd, hΔφ, hΔθ2, hΔθ]
      exact mul_pos (by positivity)
        (mul_pos (pow_pos hr 3) (mul_pos hcA (mul_pos hsθ hsφ)))
    · rw [dot3_smul3_right, triA_dot_thd, hΔφ, hΔθ2, hΔθ]
      exact mul_pos (by positivity)
        (mul_pos (pow_pos hr 3) (mul_pos hcA (mul_pos hsθ hsφ)))
  · -- lower-cell triangle (k1+1, k2, k2+1): corners (i,j+1), (i+1,j), (i+1,j+1)
    have hcB := cos_stack_pos st (i + 1) (Nat.succ_ne_zero i) (by omega)
    dsimp only at hva hvb hvc
    rw [show i * (sc + 1) + j + 1 = i * (sc + 1) + (j + 1) by ring,
      sphereVertices_getD r sc st i (j + 1) (by omega) (by omega)] at hva
    rw [show i * (sc + 1) + j + sc + 1 = (i + 1) * (sc + 1) + j by ring,
      sphereVertices_getD r sc st (i + 1) j (by omega) (by omega)] at hvb
    rw [show i * (sc + 1) + j + sc + 1 + 1 = (i + 1) * (sc + 1) + (j + 1) by ring,
      sphereVertices_getD r sc st (i + 1) (j + 1) (by omega) (by omega)] at hvc
    subst hva hvb hvc
    rw [mkVertex_normal r sc st i (j + 1), mkVertex_normal r sc st (i + 1) j,
      mkVertex_normal r sc st (i + 1) (j + 1), mkVertex_pos r sc st i (j + 1),
      mkVertex_pos r sc st (i + 1) j, mkVertex_pos r sc st (i + 1) (j + 1)]
    have hΔθ : ((j : ℝ) + 1) * (2 * Real.pi / sc) - (j : ℝ) * (2 * Real.pi / sc)
        = 2 * Real.pi / sc := by ring
    have hΔθ2 : (((j + 1 : ℕ)) : ℝ) * (2 * Real.pi / sc)
        = ((j : ℝ) + 1) * (2 * Real.pi / sc) := by push_cast; ring
    have hΔφ : (Real.pi / 2 - (i : ℝ) * (Real.pi / st)) -
        (Real.pi / 2 - (((i + 1 : ℕ)) : ℝ) * (Real.pi / st)) = Real.pi / st := by
      push_cast; ring
    refine ⟨?_, ?_, ?_⟩
    · rw [dot3_smul3_right, triB_dot_fst, hΔφ, hΔθ2, hΔθ]
      exact mul_pos (by positivity)
        (mul_pos (pow_pos hr 3) (mul_pos hcB (mul_pos hsθ hsφ)))
    · rw [dot3_smul3_right, triB_dot_snd, hΔφ, hΔθ2, hΔθ]
      exact mul_pos (by positivity)
        (mul_pos (pow_pos hr 3) (mul_pos hcB (mul_pos hsθ hsφ)))
    · rw [dot3_smul3_right, triB_dot_thd, hΔφ, hΔθ2, hΔθ]
      exact mul_pos (by positivity)
        (mul_pos (pow_pos hr 3) (mul_pos hcB (mul_pos hsθ hsφ)))

/-- Witness for C5 at `r = 1`, counts `3`, on the first emitted triangle
`(1, 4, 5)`. -/
theorem claim_C5_witness :
    (0 : ℝ) < 1 ∧ ((1, 4, 5) : ℕ × ℕ × ℕ) ∈ sphereTriangles 3 3 ∧
      0 < dot3 (cross3
          (sub3 ((sphereVertices (1 : ℝ) 3 3).getD 4 vdum).pos
            ((sphereVertices (1 : ℝ) 3 3).getD 1 vdum).pos)
          (sub3 ((sphereVertices (1 : ℝ) 3 3).getD 5 vdum).pos
            ((sphereVertices (1 : ℝ) 3 3).getD 1 vdum).pos))
        ((sphereVertices (1 : ℝ) 3 3).getD 1 vdum).normal :=
  ⟨by norm_num, by decide,
    (claim_C5 1 3 3 (by norm_num) (le_refl 3) (le_refl 3) (1, 4, 5)
      (by decide) _ _ _ rfl rfl rfl).1⟩

/-! ## Vector algebra for the orbit camera -/

/-- The self dot product written as a sum of squares. -/
theorem dot3_self_nonneg (v : V3) : 0 ≤ dot3 v v := by
  have h : dot3 v v = v.1 ^ 2 + v.2.1 ^ 2 + v.2.2 ^ 2 := by unfold dot3; ring
  rw [h]; positivity

/-- A vector with vanishing self dot product is zero. -/
theorem eq_zero_of_dot3_self (v : V3) (h : dot3 v v = 0) :
    v = ((0 : ℝ), (0 : ℝ), (0 : ℝ)) := by
  unfold dot3 at h
  have h1 : v.1 = 0 := by nlinarith [sq_nonneg v.1, sq_nonneg v.2.1, sq_nonneg v.2.2]
  have h2 : v.2.1 = 0 := by nlinarith [sq_nonneg v.1, sq_nonneg v.2.1, sq_nonneg v.2.2]
  have h3 : v.2.2 = 0 := by nlinarith [sq_nonneg v.1, sq_nonneg v.2.1, sq_nonneg v.2.2]
  exact Prod.ext h1 (Prod.ext h2 h3)

/-- The magnitude is nonnegative. -/
theorem norm3_nonneg (v : V3) : 0 ≤ norm3 v := Real.sqrt_nonneg _

/-- The self dot product is the squared magnitude. -/
theorem dot3_eq_norm_sq (v : V3) : dot3 v v = norm3 v ^ 2 := by
  unfold norm3
  rw [Real.sq_sqrt (dot3_self_nonneg v)]

/-- Normalizing a vector of positive magnitude yields a unit vector. -/
theorem norm3_normalize3 (v : V3) (h : 0 < norm3 v) :
    norm3 (normalize3 v) = 1 := by
  unfold normalize3
  rw [norm3_smul3, abs_of_pos (one_div_pos.mpr h), one_div,
    inv_mul_cancel₀ (ne_of_gt h)]

/-- Composition of scalings. -/
theorem smul3_smul3 (a b : ℝ) (v : V3) : smul3 a (smul3 b v) = smul3 (a * b) v := by
  unfold smul3
  dsimp only
  rw [Prod.mk.injEq, Prod.mk.injEq]
  exact ⟨by ring, by ring, by ring⟩

/-- Scalars pull out of both sides of the dot product. -/
theorem dot3_smul3_smul3 (a b : ℝ) (u v : V3) :
    dot3 (smul3 a u) (smul3 b v) = a * b * dot3 u v := by
  unfold dot3 smul3
  dsimp only
  ring

/-- The dot product is linear in a difference on the left. -/
theorem dot3_sub_left (u v p : V3) :
    dot3 (sub3 u v) p = dot3 u p - dot3 v p := by
  unfold dot3 sub3
  dsimp only
  ring

/-- Lagrange identity for the cross product. -/
theorem lagrange3 (u v : V3) :
    dot3 (cross3 u v) (cross3 u v) = dot3 u u * dot3 v v - dot3 u v ^ 2 := by
  unfold dot3 cross3
  dsimp only
  ring

/-- The middle component squared is at most the self dot product. -/
theorem sq_snd_le_dot3 (v : V3) : v.2.1 ^ 2 ≤ dot3 v v := by
  unfold dot3
  nlinarith [sq_nonneg v.1, sq_nonneg v.2.2]

/-- The cross product is orthogonal to its first factor. -/
theorem dot3_cross_left (a b : V3) : dot3 (cross3 a b) a = 0 := by
  unfold dot3 cross3
  dsimp only
  ring

/-- A vector is orthogonal to any cross product it enters first. -/
theorem dot3_cross_fst (a b : V3) : dot3 a (cross3 a b) = 0 := by
  unfold dot3 cross3
  dsimp only
  ring

/-- A vector is orthogonal to any cross product it enters second. -/
theorem dot3_cross_snd (a b : V3) : dot3 a (cross3 b a) = 0 := by
  unfold dot3 cross3
  dsimp only
  ring

/-- Cross product of a difference against the subtrahend. -/
theorem cross3_sub_cancel (u v : V3) : cross3 (sub3 u v) v = cross3 u v := by
  unfold cross3 sub3
  dsimp only
  rw [Prod.mk.injEq, Prod.mk.injEq]
  exact ⟨by ring, by ring, by ring⟩

/-- Scalars pull out of both sides of the cross product. -/
theorem cross3_smul3_smul3 (a b : ℝ) (u v : V3) :
    cross3 (smul3 a u) (smul3 b v) = smul3 (a * b) (cross3 u v) := by
  unfold cross3 smul3
  dsimp only
  rw [Prod.mk.injEq, Prod.mk.injEq]
  exact ⟨by ring, by ring, by ring⟩

/-- Middle component of a scaled vector. -/
theorem smul3_y (c : ℝ) (v : V3) : (smul3 c v).2.1 = c * v.2.1 := rfl

/-! ## The raw orbit path and the plane position -/

/-- Squared magnitude of the raw path vector. -/
theorem dot3_pathRaw (a θ : ℝ) :
    dot3 (pathRaw a θ) (pathRaw a θ) = a ^ 2 + (Real.sin (θ * 2) * 0.4) ^ 2 := by
  unfold dot3 pathRaw
  dsimp only
  linear_combination (a ^ 2) * Real.sin_sq_add_cos_sq θ

/-- The raw path vector never vanishes for positive altitude. -/
theorem norm3_pathRaw_pos (a θ : ℝ) (ha : 0 < a) : 0 < norm3 (pathRaw a θ) := by
  unfold norm3
  apply Real.sqrt_pos.mpr
  rw [dot3_pathRaw]
  have h1 : 0 < a ^ 2 := pow_pos ha 2
  nlinarith [sq_nonneg (Real.sin (θ * 2) * 0.4)]

/-- The renormalized plane position has magnitude exactly the altitude. -/
theorem norm3_planePosition (a θ : ℝ) (ha : 0 < a) :
    norm3 (planePosition a θ) = a := by
  unfold planePosition
  rw [norm3_smul3, norm3_normalize3 _ (norm3_pathRaw_pos a θ ha),
    abs_of_pos ha, mul_one]

/-- Middle component of the cross product of two raw path vectors. -/
theorem pathRaw_crossY (a θ θ' : ℝ) :
    (cross3 (pathRaw a θ') (pathRaw a θ)).2.1 = a ^ 2 * Real.sin (θ' - θ) := by
  unfold pathRaw cross3
  dsimp only
  rw [Real.sin_sub θ' θ]
  ring

/-- C4: in automatic orbit mode, for every altitude in its clamped range
[1.05, 2] and every sequence of elapsed-time steps (each advancing the
angle by `speed·Δt`), the plane position has magnitude equal to the
altitude at every sampled time. -/
theorem claim_C4 (a angle0 speed : ℝ) (ha1 : 1.05 ≤ a) (ha2 : a ≤ 2) :
    ∀ dts : List ℝ,
      norm3 (planePosition a
        (dts.foldl (fun ang dt => ang + speed * dt) angle0)) = a := by
  intro dts
  exact norm3_planePosition a _ (by linarith)

/-- Witness for C4 at altitude `1.05`, two frames. -/
theorem claim_C4_witness :
    (1.05 : ℝ) ≤ 1.05 ∧ (1.05 : ℝ) ≤ 2 ∧
      norm3 (planePosition (1.05 : ℝ)
        (([1, 2] : List ℝ).foldl (fun ang dt => ang + 1 * dt) 0)) = 1.05 :=
  ⟨le_refl _, by norm_num, claim_C4 1.05 0 1 (le_refl _) (by norm_num) [1, 2]⟩

/-! ## The orbit frame (C3)

The code builds `forward = normalize(nextPos - planePos)`,
`up0 = normalize(planePos)`, `right = cross(forward, up0)`,
`up = cross(right, forward)` and does not renormalize `right` and `up`.
Because the finite-difference chord `nextPos - planePos` between two
points of equal magnitude is never orthogonal to the radial direction,
`dot(forward, up0) < 0` strictly, and `‖right‖ = ‖up‖ = √(1-dot²) < 1`. -/

/-- Frame analysis for two positions `P`, `Q` obtained by renormalizing
two nonzero vectors `w`, `w'` to common length `a`, when
`cross w' w` has positive middle component (so `w`, `w'` are not
parallel). -/
theorem orbit_frame_aux (a : ℝ) (w w' P Q : V3) (ha : 0 < a)
    (hnw : 0 < norm3 w) (hnw' : 0 < norm3 w')
    (hY : 0 < (cross3 w' w).2.1)
    (hP : P = smul3 a (normalize3 w)) (hQ : Q = smul3 a (normalize3 w')) :
    norm3 (normalize3 (sub3 Q P)) = 1 ∧
    dot3 (normalize3 (sub3 Q P)) (normalize3 P) < 0 ∧
    0 < norm3 (cross3 (normalize3 (sub3 Q P)) (normalize3 P)) ∧
    norm3 (cross3 (normalize3 (sub3 Q P)) (normalize3 P)) < 1 ∧
    norm3 (cross3 (cross3 (normalize3 (sub3 Q P)) (normalize3 P))
        (normalize3 (sub3 Q P)))
      = norm3 (cross3 (normalize3 (sub3 Q P)) (normalize3 P)) := by
  have hnw0 : norm3 w ≠ 0 := ne_of_gt hnw
  have hnw0' : norm3 w' ≠ 0 := ne_of_gt hnw'
  have hdw : dot3 w w = norm3 w ^ 2 := dot3_eq_norm_sq w
  have hdw' : dot3 w' w' = norm3 w' ^ 2 := dot3_eq_norm_sq w'
  -- strict Cauchy-Schwarz between w' and w
  have hYsq : 0 < (cross3 w' w).2.1 ^ 2 := pow_pos hY 2
  have hlag := lagrange3 w' w
  have hYle := sq_snd_le_dot3 (cross3 w' w)
  have hcs2 : dot3 w' w ^ 2 < dot3 w' w' * dot3 w w := by nlinarith
  have hcs : dot3 w' w < norm3 w * norm3 w' := by
    have hN : 0 < norm3 w * norm3 w' := mul_pos hnw hnw'
    have h2 : dot3 w' w ^ 2 < (norm3 w * norm3 w') ^ 2 := by
      rw [mul_pow, ← hdw, ← hdw']
      nlinarith
    nlinarith
  -- the two renormalized positions
  have hPw : P = smul3 (a * (1 / norm3 w)) w := by
    rw [hP]; unfold normalize3; rw [smul3_smul3]
  have hQw : Q = smul3 (a * (1 / norm3 w')) w' := by
    rw [hQ]; unfold normalize3; rw [smul3_smul3]
  have hdPP : dot3 P P = a ^ 2 := by
    rw [hPw, dot3_smul3_smul3, hdw]
    field_simp
    ring
  have hnP : norm3 P = a := by
    unfold norm3
    rw [hdPP, Real.sqrt_sq ha.le]
  have hcoef : 0 < a * (1 / norm3 w') * (a * (1 / norm3 w)) :=
    mul_pos (mul_pos ha (one_div_pos.mpr hnw'))
      (mul_pos ha (one_div_pos.mpr hnw))
  have hdQP : dot3 Q P < a ^ 2 := by
    rw [hQw, hPw, dot3_smul3_smul3]
    have h1 := mul_lt_mul_of_pos_left hcs hcoef
    have h2 : a * (1 / norm3 w') * (a * (1 / norm3 w)) * (norm3 w * norm3 w')
        = a ^ 2 := by field_simp; ring
    linarith
  have hsubP : dot3 (sub3 Q P) P < 0 := by
    rw [dot3_sub_left]
    linarith
  have hsubqq : 0 < dot3 (sub3 Q P) (sub3 Q P) := by
    rcases (dot3_self_nonneg (sub3 Q P)).lt_or_eq with h | h
    · exact h
    · exfalso
      have h0 := eq_zero_of_dot3_self _ h.symm
      rw [h0] at hsubP
      have hz : dot3 ((0 : ℝ), (0 : ℝ), (0 : ℝ)) P = 0 := by
        unfold dot3; norm_num
      linarith
  have hnsub : 0 < norm3 (sub3 Q P) := Real.sqrt_pos.mpr hsubqq
  have hnsub0 : norm3 (sub3 Q P) ≠ 0 := ne_of_gt hnsub
  have hnF : norm3 (normalize3 (sub3 Q P)) = 1 := norm3_normalize3 _ hnsub
  -- the forward-vs-initial-up dot product is strictly negative
  have hFU : dot3 (normalize3 (sub3 Q P)) (normalize3 P) < 0 := by
    unfold normalize3
    rw [dot3_smul3_smul3, hnP]
    exact mul_neg_of_pos_of_neg
      (mul_pos (one_div_pos.mpr hnsub) (one_div_pos.mpr ha)) hsubP
  have hFF : dot3 (normalize3 (sub3 Q P)) (normalize3 (sub3 Q P)) = 1 := by
    rw [dot3_eq_norm_sq, hnF]; norm_num
  have hnPpos : 0 < norm3 P := by rw [hnP]; exact ha
  have hUU : dot3 (normalize3 P) (normalize3 P) = 1 := by
    rw [dot3_eq_norm_sq, norm3_normalize3 _ hnPpos]; norm_num
  -- the right vector: squared magnitude 1 - dot² < 1, and positive
  have hRR : dot3 (cross3 (normalize3 (sub3 Q P)) (normalize3 P))
      (cross3 (normalize3 (sub3 Q P)) (normalize3 P))
      = 1 - dot3 (normalize3 (sub3 Q P)) (normalize3 P) ^ 2 := by
    rw [lagrange3, hFF, hUU]; ring
  have hRR_lt : dot3 (cross3 (normalize3 (sub3 Q P)) (normalize3 P))
      (cross3 (normalize3 (sub3 Q P)) (normalize3 P)) < 1 := by
    rw [hRR]
    nlinarith
  have hQPy : (cross3 (sub3 Q P) P).2.1
      = a * (1 / norm3 w') * (a * (1 / norm3 w)) * (cross3 w' w).2.1 := by
    rw [cross3_sub_cancel, hQw, hPw, cross3_smul3_smul3, smul3_y]
  have hRy : (cross3 (normalize3 (sub3 Q P)) (normalize3 P)).2.1
      = 1 / norm3 (sub3 Q P) * (1 / norm3 P)
          * (a * (1 / norm3 w') * (a * (1 / norm3 w)) * (cross3 w' w).2.1) := by
    unfold normalize3
    rw [cross3_smul3_smul3, smul3_y, hQPy]
  have hRypos : 0 < (cross3 (normalize3 (sub3 Q P)) (normalize3 P)).2.1 := by
    rw [hRy, hnP]
    exact mul_pos (mul_pos (one_div_pos.mpr hnsub) (one_div_pos.mpr ha))
      (mul_pos hcoef hY)
  have hRR_pos : 0 < dot3 (cross3 (normalize3 (sub3 Q P)) (normalize3 P))
      (cross3 (normalize3 (sub3 Q P)) (normalize3 P)) :=
    lt_of_lt_of_le (pow_pos hRypos 2)
      (sq_snd_le_dot3 (cross3 (normalize3 (sub3 Q P)) (normalize3 P)))
  have hnR_pos : 0 < norm3 (cross3 (normalize3 (sub3 Q P)) (normalize3 P)) :=
    Real.sqrt_pos.mpr hRR_pos
  have hnR_lt : norm3 (cross3 (normalize3 (sub3 Q P)) (normalize3 P)) < 1 := by
    have h2 : norm3 (cross3 (normalize3 (sub3 Q P)) (normalize3 P)) ^ 2 < 1 := by
      rw [← dot3_eq_norm_sq]
      exact hRR_lt
    nlinarith [norm3_nonneg (cross3 (normalize3 (sub3 Q P)) (normalize3 P))]
  -- the recomputed up has the same magnitude as right
  have hnUp : norm3 (cross3 (cross3 (normalize3 (sub3 Q P)) (normalize3 P))
      (normalize3 (sub3 Q P)))
      = norm3 (cross3 (normalize3 (sub3 Q P)) (normalize3 P)) := by
    unfold norm3
    refine congrArg Real.sqrt ?_
    rw [lagrange3, hFF, dot3_cross_left]
    ring
  exact ⟨hnF, hFU, hnR_pos, hnR_lt, hnUp⟩

/-- The frame facts instantiated at the orbit camera's per-frame vectors:
forward is unit and strictly non-orthogonal to the initial up estimate;
right (and therefore the recomputed up) has magnitude strictly between 0
and 1. -/
theorem orbitFrame_facts (alt θ : ℝ) (ha : 0 < alt) :
    norm3 (forwardVec alt θ) = 1 ∧
    dot3 (forwardVec alt θ) (upInitial alt θ) < 0 ∧
    0 < norm3 (rightVec alt θ) ∧
    norm3 (rightVec alt θ) < 1 ∧
    norm3 (upVec alt θ) = norm3 (rightVec alt θ) := by
  have hY : 0 < (cross3 (pathRaw alt (θ + 0.01)) (pathRaw alt θ)).2.1 := by
    rw [pathRaw_crossY, show θ + 0.01 - θ = (0.01 : ℝ) by ring]
    have hπ := Real.pi_gt_three
    have hs : 0 < Real.sin 0.01 :=
      Real.sin_pos_of_pos_of_lt_pi (by norm_num) (by nlinarith)
    exact mul_pos (pow_pos ha 2) hs
  exact orbit_frame_aux alt (pathRaw alt θ) (pathRaw alt (θ + 0.01))
    (planePosition alt θ) (planePosition alt (θ + 0.01)) ha
    (norm3_pathRaw_pos alt θ ha) (norm3_pathRaw_pos alt (θ + 0.01) ha)
    hY rfl rfl

/-- C3 (amended): in automatic orbit mode the per-frame
`(forward, up, right)` vectors are pairwise exactly orthogonal and
`forward` is unit length; but `right` and `up` — which the code does not
renormalize — have equal magnitude strictly between 0 and 1 (short of
unit by the finite-difference error), for every altitude in the clamped
range and every angle. -/
theorem claim_C3 (alt θ : ℝ) (ha1 : 1.05 ≤ alt) (ha2 : alt ≤ 2) :
    dot3 (forwardVec alt θ) (rightVec alt θ) = 0 ∧
    dot3 (forwardVec alt θ) (upVec alt θ) = 0 ∧
    dot3 (rightVec alt θ) (upVec alt θ) = 0 ∧
    norm3 (forwardVec alt θ) = 1 ∧
    norm3 (upVec alt θ) = norm3 (rightVec alt θ) ∧
    0 < norm3 (rightVec alt θ) ∧ norm3 (rightVec alt θ) < 1 := by
  have h := orbitFrame_facts alt θ (by linarith)
  exact ⟨dot3_cross_fst _ _, dot3_cross_snd _ _, dot3_cross_fst _ _,
    h.1, h.2.2.2.2, h.2.2.1, h.2.2.2.1⟩

/-- C3 counterexample: at the reachable initial state (altitude `1.05`,
angle `0`) the right vector is not unit length, refuting "each of unit
length" as stated. -/
theorem claim_C3_counterexample :
    (1.05 : ℝ) ≤ 1.05 ∧ (1.05 : ℝ) ≤ 2 ∧
      norm3 (rightVec (1.05 : ℝ) 0) ≠ 1 :=
  ⟨le_refl _, by norm_num,
    ne_of_lt (orbitFrame_facts 1.05 0 (by norm_num)).2.2.2.1⟩

/-- Witness for the amended C3 at altitude `2`, angle `1`. -/
theorem claim_C3_witness :
    (1.05 : ℝ) ≤ 2 ∧ (2 : ℝ) ≤ 2 ∧
      dot3 (forwardVec (2 : ℝ) 1) (rightVec (2 : ℝ) 1) = 0 :=
  ⟨by norm_num, le_refl _, (claim_C3 2 1 (by norm_num) (le_refl _)).1⟩

/-! ## Event handlers: untouched fields and clamping -/

/-- `processInput` never touches the orbit angle, the manual camera
angles, the camera distance, or the mouse reference point. -/
theorem processInputStep_const_fields (s : SimState) (sp u d l r : Bool) :
    (processInputStep s sp u d l r).planeAngle = s.planeAngle ∧
    (processInputStep s sp u d l r).cameraAngleX = s.cameraAngleX ∧
    (processInputStep s sp u d l r).cameraAngleY = s.cameraAngleY ∧
    (processInputStep s sp u d l r).cameraDistance = s.cameraDistance ∧
    (processInputStep s sp u d l r).lastX = s.lastX ∧
    (processInputStep s sp u d l r).lastY = s.lastY := by
  obtain ⟨alt, spd, ang, tilt, mc, dist, ax, ay, lx, ly, fm, mp, spr, gx, gy⟩ := s
  cases sp <;> cases spr <;> cases mc <;> exact ⟨rfl, rfl, rfl, rfl, rfl, rfl⟩

/-- `mouse_callback` never touches the orbit parameters or the camera
distance. -/
theorem mouseCallback_const_fields (s : SimState) (x y : ℝ) :
    (mouseCallback s x y).planeAngle = s.planeAngle ∧
    (mouseCallback s x y).planeSpeed = s.planeSpeed ∧
    (mouseCallback s x y).planeAltitude = s.planeAltitude ∧
    (mouseCallback s x y).cameraDistance = s.cameraDistance := by
  unfold mouseCallback
  dsimp only
  split_ifs <;> exact ⟨rfl, rfl, rfl, rfl⟩

/-- `mouse_button_callback` only touches the drag flags. -/
theorem mouseButtonCallback_const_fields (s : SimState) (lb pr : Bool) :
    (mouseButtonCallback s lb pr).planeAngle = s.planeAngle ∧
    (mouseButtonCallback s lb pr).planeSpeed = s.planeSpeed ∧
    (mouseButtonCallback s lb pr).planeAltitude = s.planeAltitude ∧
    (mouseButtonCallback s lb pr).cameraAngleY = s.cameraAngleY ∧
    (mouseButtonCallback s lb pr).cameraDistance = s.cameraDistance := by
  unfold mouseButtonCallback
  split_ifs <;> exact ⟨rfl, rfl, rfl, rfl, rfl⟩

/-- `scroll_callback` only touches the camera distance. -/
theorem scrollCallback_const_fields (s : SimState) (yo : ℝ) :
    (scrollCallback s yo).planeAngle = s.planeAngle ∧
    (scrollCallback s yo).planeSpeed = s.planeSpeed ∧
    (scrollCallback s yo).planeAltitude = s.planeAltitude ∧
    (scrollCallback s yo).cameraAngleY = s.cameraAngleY := by
  exact ⟨rfl, rfl, rfl, rfl⟩

/-- The per-frame view computation changes nothing but (in plane view) the
orbit angle. -/
theorem renderFrame_const (s : SimState) (dt : ℝ) :
    (renderFrame s dt).1.manualControl = s.manualControl ∧
    (renderFrame s dt).1.planeSpeed = s.planeSpeed ∧
    (renderFrame s dt).1.planeAltitude = s.planeAltitude := by
  unfold renderFrame
  split_ifs <;> exact ⟨rfl, rfl, rfl⟩

/-- In plane view a frame advances the angle by `planeSpeed·deltaTime` and
changes nothing else. -/
theorem renderFrame_auto (s : SimState) (dt : ℝ) (hm : s.manualControl = false) :
    (renderFrame s dt).1
      = { s with planeAngle := s.planeAngle + s.planeSpeed * dt } := by
  unfold renderFrame
  rw [if_pos hm]

/-- Over any sequence of frames spent in plane view, the orbit angle
accumulates exactly `planeSpeed` times the total elapsed time. -/
theorem framesRun_angle (dts : List ℝ) : ∀ s : SimState,
    s.manualControl = false →
      (framesRun s dts).planeAngle = s.planeAngle + s.planeSpeed * dts.sum ∧
      (framesRun s dts).planeSpeed = s.planeSpeed ∧
      (framesRun s dts).manualControl = false := by
  induction dts with
  | nil =>
      intro s hm
      exact ⟨by simp [framesRun], rfl, hm⟩
  | cons d ds ih =>
      intro s hm
      have hstep : (renderFrame s d).1
          = { s with planeAngle := s.planeAngle + s.planeSpeed * d } :=
        renderFrame_auto s d hm
      have hrun : framesRun s (d :: ds) = framesRun (renderFrame s d).1 ds := rfl
      obtain ⟨ha, hs, hmm⟩ := ih ((renderFrame s d).1) (by rw [hstep]; exact hm)
      refine ⟨?_, ?_, ?_⟩
      · rw [hrun, ha, hstep, List.sum_cons]
        dsimp only
        ring
      · rw [hrun, hs, hstep]
      · rw [hrun]
        exact hmm

/-- C7: in automatic orbit mode each frame advances the orbit angle by
exactly `planeSpeed·Δt`; no input handler ever changes the angle; over any
frame sequence the angle is the exact running sum (never wrapped or
clamped), and with positive speed and frame time it exceeds every bound. -/
theorem claim_C7 (s : SimState) (dt : ℝ) (hm : s.manualControl = false) :
    (renderFrame s dt).1
        = { s with planeAngle := s.planeAngle + s.planeSpeed * dt } ∧
    (∀ sp u d l r : Bool,
      (processInputStep s sp u d l r).planeAngle = s.planeAngle) ∧
    (∀ x y : ℝ, (mouseCallback s x y).planeAngle = s.planeAngle) ∧
    (∀ lb pr : Bool, (mouseButtonCallback s lb pr).planeAngle = s.planeAngle) ∧
    (∀ yo : ℝ, (scrollCallback s yo).planeAngle = s.planeAngle) ∧
    (∀ dts : List ℝ,
      (framesRun s dts).planeAngle = s.planeAngle + s.planeSpeed * dts.sum) ∧
    (0 < s.planeSpeed → 0 < dt → ∀ M : ℝ, ∃ n : ℕ,
      M < (framesRun s (List.replicate n dt)).planeAngle) := by
  refine ⟨renderFrame_auto s dt hm,
    fun sp u d l r => (processInputStep_const_fields s sp u d l r).1,
    fun x y => (mouseCallback_const_fields s x y).1,
    fun lb pr => (mouseButtonCallback_const_fields s lb pr).1,
    fun yo => (scrollCallback_const_fields s yo).1,
    fun dts => (framesRun_angle dts s hm).1, ?_⟩
  intro hsp hdt M
  obtain ⟨n, hn⟩ := exists_nat_gt ((M - s.planeAngle) / (s.planeSpeed * dt))
  refine ⟨n, ?_⟩
  rw [(framesRun_angle (List.replicate n dt) s hm).1, List.sum_replicate,
    nsmul_eq_mul]
  have hpd : 0 < s.planeSpeed * dt := mul_pos hsp hdt
  rw [div_lt_iff hpd] at hn
  have h3 : s.planeSpeed * ((n : ℝ) * dt) = (n : ℝ) * (s.planeSpeed * dt) := by
    ring
  linarith

/-- Witness for C7 at the initial state, one frame of one second. -/
theorem claim_C7_witness :
    initialState.manualControl = false ∧
      (renderFrame initialState 1).1 = { initialState with
        planeAngle := initialState.planeAngle + initialState.planeSpeed * 1 } :=
  ⟨rfl, (claim_C7 initialState 1 rfl).1⟩

/-- C9: while manual mode is active the per-frame view query changes no
state at all (in particular orbit angle, speed, altitude are untouched
over any number of manual frames), and input processing never changes the
orbit angle, so automatic mode resumes from exactly the angle at which it
was left. -/
theorem claim_C9 (s : SimState) (hm : s.manualControl = true) :
    (∀ dt : ℝ, (renderFrame s dt).1 = s) ∧
    (∀ dts : List ℝ, framesRun s dts = s) ∧
    (∀ sp u d l r : Bool,
      (processInputStep s sp u d l r).planeAngle = s.planeAngle) := by
  have h1 : ∀ dt : ℝ, (renderFrame s dt).1 = s := by
    intro dt
    unfold renderFrame
    rw [if_neg (by rw [hm]; exact fun h => Bool.noConfusion h)]
  refine ⟨h1, ?_, fun sp u d l r => (processInputStep_const_fields s sp u d l r).1⟩
  intro dts
  unfold framesRun
  induction dts with
  | nil => rfl
  | cons dhd dtl ih =>
      rw [List.foldl_cons, h1 dhd]
      exact ih

/-- Witness for C9 at the initial state toggled into manual mode. -/
theorem claim_C9_witness :
    ({ initialState with manualControl := true } : SimState).manualControl
        = true ∧
      (renderFrame { initialState with manualControl := true } 1).1
        = { initialState with manualControl := true } :=
  ⟨rfl, (claim_C9 { initialState with manualControl := true } rfl).1 1⟩

/-- C10: in both modes, the view position recomputed for the `viewPos`
shading uniform equals the eye position used to build the same frame's
view matrix (the duplicated computation agrees at the already-advanced
angle). -/
theorem claim_C10 (s : SimState) (dt : ℝ) :
    (renderFrame s dt).2 = getViewPosition (renderFrame s dt).1 := by
  by_cases h : s.manualControl = false <;>
    simp [renderFrame, getViewPosition, h]

set_option maxHeartbeats 1600000 in
/-- `processInput` either leaves speed and altitude unchanged (manual
view) or clamps both to their configured ranges (plane view). -/
theorem processInputStep_speed_alt (s : SimState) (sp u d l r : Bool) :
    ((processInputStep s sp u d l r).planeSpeed = s.planeSpeed ∧
      (processInputStep s sp u d l r).planeAltitude = s.planeAltitude) ∨
    (0 ≤ (processInputStep s sp u d l r).planeSpeed ∧
      (processInputStep s sp u d l r).planeSpeed ≤ 2 ∧
      1.05 ≤ (processInputStep s sp u d l r).planeAltitude ∧
      (processInputStep s sp u d l r).planeAltitude ≤ 2) := by
  obtain ⟨alt, spd, ang, tilt, mc, dist, ax, ay, lx, ly, fm, mp, spr, gx, gy⟩ := s
  cases sp <;> cases spr <;> cases mc <;>
    simp only [processInputStep, Bool.false_eq_true, Bool.true_eq_false,
      eq_self_iff_true, if_false, if_true, decide_not, decide_True,
      Bool.not_true, Bool.not_false] <;>
    first
      | (refine Or.inr ?_
         generalize (if u = true then (0.01 : ℝ) else 0) = du
         generalize (if d = true then (0.01 : ℝ) else 0) = dd
         generalize (if l = true then (0.01 : ℝ) else 0) = dl
         generalize (if r = true then (0.01 : ℝ) else 0) = dr
         refine ⟨?_, ?_, ?_, ?_⟩ <;> split_ifs <;> linarith)
      | exact Or.inl ⟨trivial, trivial⟩
      | exact Or.inl ⟨rfl, rfl⟩

/-- `mouse_callback` either leaves the pitch unchanged or clamps it to
`[-1.5, 1.5]`. -/
theorem mouseCallback_angleY (s : SimState) (x y : ℝ) :
    (mouseCallback s x y).cameraAngleY = s.cameraAngleY ∨
    (-1.5 ≤ (mouseCallback s x y).cameraAngleY ∧
      (mouseCallback s x y).cameraAngleY ≤ 1.5) := by
  obtain ⟨alt, spd, ang, tilt, mc, dist, ax, ay, lx, ly, fm, mp, spr, gx, gy⟩ := s
  unfold mouseCallback
  dsimp only
  split_ifs <;>
    first
      | exact Or.inl rfl
      | (refine Or.inr ⟨?_, ?_⟩ <;> dsimp only <;> linarith)

/-- `scroll_callback` always leaves the distance clamped to `[1.5, 10]`. -/
theorem scrollCallback_distance (s : SimState) (yo : ℝ) :
    1.5 ≤ (scrollCallback s yo).cameraDistance ∧
      (scrollCallback s yo).cameraDistance ≤ 10 := by
  unfold scrollCallback
  dsimp only
  split_ifs <;> constructor <;> linarith

/-- Speed already at the maximum stays there under a speed-up key. -/
theorem processInputStep_speed_pin_max (s : SimState) (sp l r : Bool)
    (h : s.planeSpeed = 2) :
    (processInputStep s sp true false l r).planeSpeed = 2 := by
  obtain ⟨alt, spd, ang, tilt, mc, dist, ax, ay, lx, ly, fm, mp, spr, gx, gy⟩ := s
  dsimp only at h
  subst h
  cases sp <;> cases spr <;> cases mc <;>
    simp only [processInputStep, Bool.false_eq_true, Bool.true_eq_false,
      eq_self_iff_true, if_false, if_true, decide_not, decide_True,
      Bool.not_true, Bool.not_false] <;>
    first
      | trivial
      | (split_ifs <;> first | trivial | linarith)

/-- Speed already at the minimum stays there under a slow-down key. -/
theorem processInputStep_speed_pin_min (s : SimState) (sp l r : Bool)
    (h : s.planeSpeed = 0) :
    (processInputStep s sp false true l r).planeSpeed = 0 := by
  obtain ⟨alt, spd, ang, tilt, mc, dist, ax, ay, lx, ly, fm, mp, spr, gx, gy⟩ := s
  dsimp only at h
  subst h
  cases sp <;> cases spr <;> cases mc <;>
    simp only [processInputStep, Bool.false_eq_true, Bool.true_eq_false,
      eq_self_iff_true, if_false, if_true, decide_not, decide_True,
      Bool.not_true, Bool.not_false] <;>
    first
      | trivial
      | (split_ifs <;> first | trivial | linarith)

/-- Altitude already at the maximum stays there under an up key. -/
theorem processInputStep_alt_pin_max (s : SimState) (sp u d : Bool)
    (h : s.planeAltitude = 2) :
    (processInputStep s sp u d false true).planeAltitude = 2 := by
  obtain ⟨alt, spd, ang, tilt, mc, dist, ax, ay, lx, ly, fm, mp, spr, gx, gy⟩ := s
  dsimp only at h
  subst h
  cases sp <;> cases spr <;> cases mc <;>
    simp only [processInputStep, Bool.false_eq_true, Bool.true_eq_false,
      eq_self_iff_true, if_false, if_true, decide_not, decide_True,
      Bool.not_true, Bool.not_false] <;>
    first
      | trivial
      | (split_ifs <;> first | trivial | linarith)

/-- Altitude already at the minimum stays there under a down key. -/
theorem processInputStep_alt_pin_min (s : SimState) (sp u d : Bool)
    (h : s.planeAltitude = 1.05) :
    (processInputStep s sp u d true false).planeAltitude = 1.05 := by
  obtain ⟨alt, spd, ang, tilt, mc, dist, ax, ay, lx, ly, fm, mp, spr, gx, gy⟩ := s
  dsimp only at h
  subst h
  cases sp <;> cases spr <;> cases mc <;>
    simp only [processInputStep, Bool.false_eq_true, Bool.true_eq_false,
      eq_self_iff_true, if_false, if_true, decide_not, decide_True,
      Bool.not_true, Bool.not_false] <;>
    first
      | trivial
      | (split_ifs <;> first | trivial | linarith)

/-- Pitch already at the maximum stays there under a further upward drag. -/
theorem mouseCallback_angleY_pin_max (s : SimState) (x y : ℝ)
    (h : s.cameraAngleY = 1.5) (hy : y ≤ s.lastY) :
    (mouseCallback s x y).cameraAngleY = 1.5 := by
  obtain ⟨alt, spd, ang, tilt, mc, dist, ax, ay, lx, ly, fm, mp, spr, gx, gy⟩ := s
  dsimp only at h hy
  subst h
  unfold mouseCallback
  dsimp only
  split_ifs <;> first | rfl | linarith

/-- Pitch already at the minimum stays there under a further downward
drag. -/
theorem mouseCallback_angleY_pin_min (s : SimState) (x y : ℝ)
    (h : s.cameraAngleY = -1.5) (hy : s.lastY ≤ y) :
    (mouseCallback s x y).cameraAngleY = -1.5 := by
  obtain ⟨alt, spd, ang, tilt, mc, dist, ax, ay, lx, ly, fm, mp, spr, gx, gy⟩ := s
  dsimp only at h hy
  subst h
  unfold mouseCallback
  dsimp only
  split_ifs <;> first | rfl | linarith

/-- Distance already at the minimum stays there under a zoom-in scroll. -/
theorem scrollCallback_pin_min (s : SimState) (yo : ℝ)
    (h : s.cameraDistance = 1.5) (hyo : 0 ≤ yo) :
    (scrollCallback s yo).cameraDistance = 1.5 := by
  obtain ⟨alt, spd, ang, tilt, mc, dist, ax, ay, lx, ly, fm, mp, spr, gx, gy⟩ := s
  dsimp only at h
  subst h
  unfold scrollCallback
  dsimp only
  split_ifs <;> first | rfl | linarith

/-- Distance already at the maximum stays there under a zoom-out scroll. -/
theorem scrollCallback_pin_max (s : SimState) (yo : ℝ)
    (h : s.cameraDistance = 10) (hyo : yo ≤ 0) :
    (scrollCallback s yo).cameraDistance = 10 := by
  obtain ⟨alt, spd, ang, tilt, mc, dist, ax, ay, lx, ly, fm, mp, spr, gx, gy⟩ := s
  dsimp only at h
  subst h
  unfold scrollCallback
  dsimp only
  split_ifs <;> first | rfl | linarith

/-- C6: after every input-processing step each adjustable parameter lies in
its configured range — speed in [0,2], altitude in [1.05,2], pitch in
[-1.5,1.5] (a bound strictly below π/2), distance in [1.5,10] — and a
parameter already at a bound is left pinned there by further events in the
same direction; every handler is a total function (no input rejected). -/
theorem claim_C6 (s : SimState) (h : paramsInRange s) :
    (∀ sp u d l r : Bool, paramsInRange (processInputStep s sp u d l r)) ∧
    (∀ x y : ℝ, paramsInRange (mouseCallback s x y)) ∧
    (∀ lb pr : Bool, paramsInRange (mouseButtonCallback s lb pr)) ∧
    (∀ yo : ℝ, paramsInRange (scrollCallback s yo)) ∧
    (s.planeSpeed = 2 → ∀ sp l r : Bool,
      (processInputStep s sp true false l r).planeSpeed = 2) ∧
    (s.planeSpeed = 0 → ∀ sp l r : Bool,
      (processInputStep s sp false true l r).planeSpeed = 0) ∧
    (s.planeAltitude = 2 → ∀ sp u d : Bool,
      (processInputStep s sp u d false true).planeAltitude = 2) ∧
    (s.planeAltitude = 1.05 → ∀ sp u d : Bool,
      (processInputStep s sp u d true false).planeAltitude = 1.05) ∧
    (s.cameraAngleY = 1.5 → ∀ x y : ℝ, y ≤ s.lastY →
      (mouseCallback s x y).cameraAngleY = 1.5) ∧
    (s.cameraAngleY = -1.5 → ∀ x y : ℝ, s.lastY ≤ y →
      (mouseCallback s x y).cameraAngleY = -1.5) ∧
    (s.cameraDistance = 1.5 → ∀ yo : ℝ, 0 ≤ yo →
      (scrollCallback s yo).cameraDistance = 1.5) ∧
    (s.cameraDistance = 10 → ∀ yo : ℝ, yo ≤ 0 →
      (scrollCallback s yo).cameraDistance = 10) ∧
    (1.5 : ℝ) < Real.pi / 2 := by
  obtain ⟨h1, h2, h3, h4, h5, h6, h7, h8⟩ := h
  refine ⟨?_, ?_, ?_, ?_,
    fun hs sp l r => processInputStep_speed_pin_max s sp l r hs,
    fun hs sp l r => processInputStep_speed_pin_min s sp l r hs,
    fun hal sp u d => processInputStep_alt_pin_max s sp u d hal,
    fun hal sp u d => processInputStep_alt_pin_min s sp u d hal,
    fun hay x y hy => mouseCallback_angleY_pin_max s x y hay hy,
    fun hay x y hy => mouseCallback_angleY_pin_min s x y hay hy,
    fun hd yo hyo => scrollCallback_pin_min s yo hd hyo,
    fun hd yo hyo => scrollCallback_pin_max s yo hd hyo,
    by have := Real.pi_gt_three; linarith⟩
  · intro sp u d l r
    obtain ⟨cang, cax, cay, cdist, clx, cly⟩ :=
      processInputStep_const_fields s sp u d l r
    rcases processInputStep_speed_alt s sp u d l r with ⟨hsp, hal⟩ |
      ⟨a1, a2, a3, a4⟩
    · exact ⟨by rw [hsp]; exact h1, by rw [hsp]; exact h2,
        by rw [hal]; exact h3, by rw [hal]; exact h4,
        by rw [cay]; exact h5, by rw [cay]; exact h6,
        by rw [cdist]; exact h7, by rw [cdist]; exact h8⟩
    · exact ⟨a1, a2, a3, a4, by rw [cay]; exact h5, by rw [cay]; exact h6,
        by rw [cdist]; exact h7, by rw [cdist]; exact h8⟩
  · intro x y
    obtain ⟨mang, msp, mal, mdist⟩ := mouseCallback_const_fields s x y
    rcases mouseCallback_angleY s x y with hay | ⟨b1, b2⟩
    · exact ⟨by rw [msp]; exact h1, by rw [msp]; exact h2,
        by rw [mal]; exact h3, by rw [mal]; exact h4,
        by rw [hay]; exact h5, by rw [hay]; exact h6,
        by rw [mdist]; exact h7, by rw [mdist]; exact h8⟩
    · exact ⟨by rw [msp]; exact h1, by rw [msp]; exact h2,
        by rw [mal]; exact h3, by rw [mal]; exact h4, b1, b2,
        by rw [mdist]; exact h7, by rw [mdist]; exact h8⟩
  · intro lb pr
    obtain ⟨bang, bsp, bal, bay, bdist⟩ :=
      mouseButtonCallback_const_fields s lb pr
    exact ⟨by rw [bsp]; exact h1, by rw [bsp]; exact h2,
      by rw [bal]; exact h3, by rw [bal]; exact h4,
      by rw [bay]; exact h5, by rw [bay]; exact h6,
      by rw [bdist]; exact h7, by rw [bdist]; exact h8⟩
  · intro yo
    obtain ⟨sang, ssp, sal, say⟩ := scrollCallback_const_fields s yo
    obtain ⟨c1, c2⟩ := scrollCallback_distance s yo
    exact ⟨by rw [ssp]; exact h1, by rw [ssp]; exact h2,
      by rw [sal]; exact h3, by rw [sal]; exact h4,
      by rw [say]; exact h5, by rw [say]; exact h6, c1, c2⟩

/-- Witness for C6 at a state sitting on all four bounds at once. -/
theorem claim_C6_witness :
    paramsInRange allBoundsState ∧
      (processInputStep allBoundsState false true false false
        false).planeSpeed = 2 := by
  have H : paramsInRange allBoundsState := by
    refine ⟨?_, ?_, ?_, ?_, ?_, ?_, ?_, ?_⟩ <;>
      norm_num [allBoundsState, initialState]
  exact ⟨H, (claim_C6 _ H).2.2.2.2.1 rfl false false false⟩
